import Mathlib

/-!
Verification of the app-review analysis pipeline.

Shallow embedding of the repository's core logic:
  * `data_processing.py`   — text normalization (`clean_text`), raw-review loading
    (`load_reviews`, `process_reviews`) and the `/process` endpoint of `api_main.py`;
  * `metrics_visualization.py` — star-rating aggregation (`calculate_metrics`);
  * `advanced_insights.py` — sentiment attachment (`apply_sentiment`), corpus metrics
    (`sentiment_metrics`), keyword bucketing (`keyword_extraction`), sunburst hierarchy
    (`build_sunburst`) and the insight rule engine (`generate_insights`).

Modelling conventions:
  * Text is a list of Unicode code points (`List Nat`); `codes` encodes a Lean string.
    Character classes (`\w`, `\s`) and lowercasing are modelled at the ASCII level,
    matching Python's behaviour on the ASCII range.
  * Python floats are modelled as rationals (`Rat`); `round(x, 2)` is round-half-to-even.
  * Dynamically typed JSON values are `PyVal`; Python exceptions are `Except` errors.
  * Recursions that Python performs by scanning a string are written with an explicit
    fuel argument equal to the input length, so that every definition is structurally
    recursive and evaluates inside the kernel.
  * The external ML capabilities (sentiment classifier, keyword extractor) are
    parameters, per the capability boundary of the design (spec section 6).
-/

/-- Dynamically typed value appearing in parsed JSON records (`None`, `int`,
`float`, `str`).  Mirrors the value space that the Python code actually
inspects with `isinstance` checks. -/
inductive PyVal where
  | vnone : PyVal
  | vint : Int → PyVal
  | vfloat : Rat → PyVal
  | vstr : String → PyVal
deriving DecidableEq, Repr

/-- `isinstance(v, (int, float))` — the numeric-rating test in
`metrics_visualization.calculate_metrics`. -/
def isNumericV : PyVal → Bool
  | .vint _ => true
  | .vfloat _ => true
  | _ => false

/-- Python truthiness test `not v` (restricted to the modelled value space):
`None`, `0`, `0.0` and `""` are falsy. -/
def pyFalsy : PyVal → Bool
  | .vnone => true
  | .vint n => n = 0
  | .vfloat q => q = 0
  | .vstr s => s = ""

/-- Truncation toward zero, Python's `int(float)`. -/
def ratTrunc (q : Rat) : Int := if 0 ≤ q then ⌊q⌋ else ⌈q⌉

/-- Python `int(v)` for the values reaching it in `calculate_metrics`
(only numeric values do; the default branch is unreachable there). -/
def pyIntV : PyVal → Int
  | .vint n => n
  | .vfloat q => ratTrunc q
  | _ => 0

/-- Round-half-to-even to an integer (Python 3 `round`). -/
def roundHalfEven (x : Rat) : Int :=
  if x - ⌊x⌋ < 1/2 then ⌊x⌋
  else if x - ⌊x⌋ > 1/2 then ⌊x⌋ + 1
  else if ⌊x⌋ % 2 = 0 then ⌊x⌋ else ⌊x⌋ + 1

/-- Python `round(x, 2)`. -/
def round2 (x : Rat) : Rat := (roundHalfEven (x * 100) : Rat) / 100

/-! ## Text normalization (`data_processing.clean_text`) -/

/-- Code points of a string. -/
def codes (s : String) : List Nat := s.toList.map Char.toNat

/-- ASCII simple case folding of one code point (`str.lower`). -/
def toLowerN (n : Nat) : Nat := if 65 ≤ n ∧ n ≤ 90 then n + 32 else n

/-- Regex `\s` on the ASCII range: space, tab, newline, vertical tab,
form feed, carriage return. -/
def isPySpaceN (n : Nat) : Bool :=
  n = 32 || n = 9 || n = 10 || n = 11 || n = 12 || n = 13

/-- Regex `\w` on the ASCII range: letters, digits, underscore. -/
def isWordN (n : Nat) : Bool :=
  (97 ≤ n && n ≤ 122) || (65 ≤ n && n ≤ 90) || (48 ≤ n && n ≤ 57) || n = 95

/-- The single-character substitution performed by
`NON_WORD_PATTERN.sub(" ", text)`: any character that is neither a word
character nor whitespace becomes a space (code point 32). -/
def wordOrSpace (n : Nat) : Nat := if isWordN n || isPySpaceN n then n else 32

/-- After `://` the regex `https?://\S+` requires at least one non-space
character and then greedily consumes the maximal non-space run; returns the
rest of the input after the match. -/
def matchCSS (l : List Nat) : Option (List Nat) :=
  match l with
  | a :: b :: c :: d :: rest =>
    if a = 58 ∧ b = 47 ∧ c = 47 ∧ isPySpaceN d = false then
      some (rest.dropWhile (fun x => !(isPySpaceN x)))
    else none
  | _ => none

/-- Match of the alternative `https?://\S+` at the head of the input,
including the regex backtracking on the optional `s`.  (A literal `http`
with nothing after it cannot contain the mandatory `://`, hence the
five-element pattern.) -/
def matchHttp (l : List Nat) : Option (List Nat) :=
  match l with
  | a :: b :: c :: d :: e :: rest2 =>
    if a = 104 ∧ b = 116 ∧ c = 116 ∧ d = 112 then
      if e = 115 then
        match matchCSS rest2 with
        | some r => some r
        | none => matchCSS (e :: rest2)
      else matchCSS (e :: rest2)
    else none
  | _ => none

/-- Match of the alternative `www\.\S+` at the head of the input. -/
def matchWWW (l : List Nat) : Option (List Nat) :=
  match l with
  | a :: b :: c :: d :: e :: rest =>
    if a = 119 ∧ b = 119 ∧ c = 119 ∧ d = 46 ∧ isPySpaceN e = false then
      some (rest.dropWhile (fun x => !(isPySpaceN x)))
    else none
  | _ => none

/-- Leftmost match of `URL_PATTERN = https?://\S+|www\.\S+` at the head of
the input, alternatives tried in order. -/
def matchURL (l : List Nat) : Option (List Nat) :=
  match matchHttp l with
  | some r => some r
  | none => matchWWW l

/-- `URL_PATTERN.sub(" ", text)`: scan left to right, replace every match
by one space, continue after the match.  Each step consumes at least one
code point, so fuel equal to the input length suffices; on fuel exhaustion
the input is returned unchanged. -/
def stripURLsF : Nat → List Nat → List Nat
  | 0, l => l
  | _ + 1, [] => []
  | fuel + 1, c :: rest =>
    match matchURL (c :: rest) with
    | some rest2 => 32 :: stripURLsF fuel rest2
    | none => c :: stripURLsF fuel rest

/-- `URL_PATTERN.sub(" ", text)`. -/
def stripURLs (l : List Nat) : List Nat := stripURLsF l.length l

/-- `re.sub("\s+", " ", text)`: each maximal whitespace run becomes one
space. -/
def collapseWsF : Nat → List Nat → List Nat
  | 0, l => l
  | _ + 1, [] => []
  | fuel + 1, c :: rest =>
    if isPySpaceN c then 32 :: collapseWsF fuel (rest.dropWhile isPySpaceN)
    else c :: collapseWsF fuel rest

/-- `re.sub("\s+", " ", text)`. -/
def collapseWs (l : List Nat) : List Nat := collapseWsF l.length l

/-- `str.strip()`: drop leading and trailing whitespace. -/
def stripN (l : List Nat) : List Nat :=
  ((l.dropWhile isPySpaceN).reverse.dropWhile isPySpaceN).reverse

/-- `str.split()`: split on whitespace runs, discarding empty tokens. -/
def splitWsF : Nat → List Nat → List (List Nat)
  | 0, _ => []
  | fuel + 1, l =>
    match l.dropWhile isPySpaceN with
    | [] => []
    | c :: rest =>
      (c :: rest.takeWhile (fun x => !(isPySpaceN x)))
        :: splitWsF fuel (rest.dropWhile (fun x => !(isPySpaceN x)))

/-- `str.split()`. -/
def splitWs (l : List Nat) : List (List Nat) := splitWsF l.length l

/-- `" ".join(tokens)`. -/
def joinSp : List (List Nat) → List Nat
  | [] => []
  | [t] => t
  | t :: rest => t ++ 32 :: joinSp rest

/-- Canonical whitespace shape: every whitespace character is a plain space
followed by a non-space character (hence no double spaces and no trailing
space). -/
def wsOk : List Nat → Bool
  | [] => true
  | [c] => !(isPySpaceN c)
  | c :: d :: rest => (!(isPySpaceN c) || (c == 32 && !(isPySpaceN d))) && wsOk (d :: rest)

/-- Tokens acceptable to `" ".join`: nonempty and whitespace-free. -/
def goodToksWs (ts : List (List Nat)) : Prop :=
  ∀ t ∈ ts, t ≠ [] ∧ ∀ c ∈ t, isPySpaceN c = false

/-- The fixed `STOPWORDS` set of `data_processing.py`. -/
def STOPWORDS : List (List Nat) :=
  [codes "a", codes "an", codes "the", codes "and", codes "or", codes "but",
   codes "if", codes "in", codes "on", codes "at", codes "to", codes "for",
   codes "of", codes "is", codes "it", codes "be", codes "as", codes "by",
   codes "this", codes "that", codes "with", codes "from", codes "are",
   codes "was", codes "were", codes "so", codes "we", codes "he", codes "she",
   codes "they", codes "you", codes "i", codes "me", codes "my", codes "our",
   codes "your", codes "their"]

/-- Steps 2–5 of `clean_text` after lowercasing: URL removal, punctuation
removal, whitespace collapsing and stripping. -/
def normStage (s : List Nat) : List Nat :=
  stripN (collapseWs ((stripURLs (s.map toLowerN)).map wordOrSpace))

/-- The surviving tokens of `clean_text`: whitespace-split of the normalized
text with stopwords removed. -/
def tokensOf (s : List Nat) : List (List Nat) :=
  (splitWs (normStage s)).filter (fun t => decide (t ∉ STOPWORDS))

/-- `data_processing.clean_text`: lowercase, strip URLs, strip punctuation,
collapse whitespace, remove stopwords, rejoin with single spaces.  Empty
(falsy) input short-circuits to the empty string. -/
def cleanTextN (s : List Nat) : List Nat :=
  if s = [] then [] else joinSp (tokensOf s)

/-! ## Corpus loading (`data_processing.load_reviews` / `process_reviews`,
`api_main.process_reviews_endpoint`) -/

/-- One record of the `reviews` array of a raw file, modelled as a JSON
object with the fields the loader reads (absent key = `none`), per the raw
review file contract of spec section 6. -/
structure RawReview where
  id : Option PyVal
  rating : Option PyVal
  title : Option PyVal
  content : Option PyVal
deriving DecidableEq

/-- A raw review file as the loader sees it: either unreadable or
ill-formed JSON (`json.JSONDecodeError` / `OSError`, caught in
`load_reviews`), or a parsed object whose `reviews` entry is a record
list (missing `reviews` key = empty list). -/
inductive RawFile where
  | malformed : RawFile
  | parsed : List RawReview → RawFile
deriving DecidableEq

/-- `load_reviews`: a malformed file is logged and contributes no records. -/
def loadReviewsFile : RawFile → List RawReview
  | .malformed => []
  | .parsed rs => rs

/-- `clean_text` applied to an arbitrary field value: falsy values return
`""`, a string is normalized, and any other truthy value raises
`AttributeError` at `text.lower()`. -/
def pyCleanTextV : PyVal → Except String (List Nat)
  | .vstr s => .ok (cleanTextN (codes s))
  | v => if pyFalsy v then .ok [] else .error "AttributeError"

/-- One entry of the cleaned dataset written by `process_reviews`. -/
structure Entry where
  id : PyVal
  country : String
  rating : PyVal
  title : PyVal
  content : PyVal
  cleaned_title : List Nat
  cleaned_content : List Nat
deriving DecidableEq

/-- The per-review body of the `process_reviews` loop: build the cleaned
entry; if constructing it raises (only the `clean_text` calls can), the
record is skipped (`except ... continue`). -/
def processReview (country : String) (r : RawReview) : Option Entry :=
  match pyCleanTextV (r.title.getD (.vstr "")), pyCleanTextV (r.content.getD (.vstr "")) with
  | .ok ct, .ok cc =>
    some { id := r.id.getD .vnone
           country := country
           rating := r.rating.getD .vnone
           title := r.title.getD (.vstr "")
           content := r.content.getD (.vstr "")
           cleaned_title := ct
           cleaned_content := cc }
  | _, _ => none

/-- `data_processing.process_reviews`: the discovered files (country paired
with parse outcome), concatenated in discovery order; malformed files and
skipped records contribute nothing.  Zero files discovered → warning printed
and `[]` returned. -/
def process_reviews (files : List (String × RawFile)) : List Entry :=
  if files = [] then []
  else files.flatMap (fun cf => (loadReviewsFile cf.2).filterMap (processReview cf.1))

/-- `api_main.process_reviews_endpoint` (`POST /process`): HTTP 404 exactly
when the cleaned list is empty, otherwise the cleaned entries. -/
def process_reviews_endpoint (files : List (String × RawFile)) : Except String (List Entry) :=
  if process_reviews files = [] then
    .error "404: No raw review files found to process."
  else .ok (process_reviews files)

/-! ## Rating metrics (`metrics_visualization.calculate_metrics`) -/

/-- `RATING_RANGE = [1, 2, 3, 4, 5]`. -/
def RATING_RANGE : List Int := [1, 2, 3, 4, 5]

/-- `{r: 0 for r in RATING_RANGE}`. -/
def zeroCounts : List (Int × Nat) := RATING_RANGE.map (fun r => (r, 0))

/-- `if rating in rating_counts: rating_counts[rating] += 1` — increments
the bucket when the key exists, otherwise leaves the dict unchanged. -/
def bumpCount (cs : List (Int × Nat)) (r : Int) : List (Int × Nat) :=
  cs.map (fun p => if p.1 = r then (p.1, p.2 + 1) else p)

/-- Result record of `calculate_metrics`. -/
structure RMetrics where
  average_rating : Rat
  rating_counts : List (Int × Nat)
  total_reviews : Nat
deriving DecidableEq

/-- `metrics_visualization.calculate_metrics`. -/
def calculate_metrics (reviews : List Entry) : RMetrics :=
  if reviews = [] then ⟨0, zeroCounts, 0⟩
  else
    let valid := reviews.filter (fun r => isNumericV r.rating)
    let total := valid.length
    let counts := valid.foldl (fun cs rev => bumpCount cs (pyIntV rev.rating)) zeroCounts
    let rsum := valid.foldl (fun s rev => s + pyIntV rev.rating) (0 : Int)
    ⟨if total > 0 then (rsum : Rat) / (total : Rat) else 0, counts, total⟩

/-! ## Sentiment attachment (`advanced_insights.apply_sentiment`) -/

/-- One output record of the external sentiment-classification capability:
`{label: string, score: number}` (spec section 6); the score is kept as a
dynamic value since the code checks `isinstance(r["score"], float)`. -/
structure ClsResult where
  label : String
  score : PyVal
deriving DecidableEq

/-- Label mapping of `apply_sentiment`: lowercase, then `neutral` and
`positive` map to themselves and everything else to `negative`. -/
def mapLabel (lab : String) : String :=
  let l := lab.toLower
  if l = "neutral" then "neutral"
  else if l = "positive" then "positive"
  else "negative"

/-- `r["score"] if isinstance(r["score"], float) else 0.0`. -/
def attachScore : PyVal → Rat
  | .vfloat q => q
  | _ => 0

/-- A processed review row before classification (only the column
`apply_sentiment` reads). -/
structure CleanRow where
  cleaned_content : String
deriving DecidableEq

/-- A review row carrying the attached sentiment columns. -/
structure LabeledRow where
  cleaned_content : String
  sentiment : String
  sentiment_score : Rat
deriving DecidableEq

/-- `advanced_insights.apply_sentiment`, with the classifier results as the
capability-boundary input (positionally aligned with the rows). -/
def apply_sentiment (df : List CleanRow) (results : List ClsResult) : List LabeledRow :=
  List.zipWith
    (fun (row : CleanRow) (r : ClsResult) =>
      ⟨row.cleaned_content, mapLabel r.label, attachScore r.score⟩)
    df results

/-! ## Sentiment metrics (`advanced_insights.sentiment_metrics`) -/

/-- First occurrences of each label, in order of appearance. -/
def firstOccs (l : List String) : List String :=
  l.foldl (fun acc x => if x ∈ acc then acc else acc.concat x) []

/-- Stable descending insertion by count (ties keep earlier-inserted keys
first). -/
def insertDesc (p : String × Nat) : List (String × Nat) → List (String × Nat)
  | [] => [p]
  | q :: qs => if p.2 ≤ q.2 then q :: insertDesc p qs else p :: q :: qs

/-- `pandas.Series.value_counts().to_dict()`: per-label counts, sorted by
count descending. -/
def value_counts (labels : List String) : List (String × Nat) :=
  (firstOccs labels).foldl
    (fun acc k => insertDesc (k, labels.countP (fun x => x == k)) acc) []

/-- Result record of `sentiment_metrics`; `average_score` is `none` when the
mean of an empty column is NaN. -/
structure SMetrics where
  total_reviews : Nat
  counts : List (String × Nat)
  percentages : List (String × Rat)
  average_score : Option Rat
deriving DecidableEq

/-- Python `/`, which raises `ZeroDivisionError` on a zero divisor. -/
def pyDiv (a b : Rat) : Except String Rat :=
  if b = 0 then .error "ZeroDivisionError" else .ok (a / b)

/-- `advanced_insights.sentiment_metrics`: counts, per-label percentages
`round(100 * v / total, 2)` and the mean confidence score. -/
def sentiment_metrics (df : List LabeledRow) : Except String SMetrics := do
  let total := df.length
  let counts := value_counts (df.map (·.sentiment))
  let percentages ← counts.mapM (fun p => do
    let q ← pyDiv (100 * (p.2 : Rat)) (total : Rat)
    pure (p.1, round2 q))
  pure ⟨total, counts, percentages,
        if total = 0 then none
        else some ((df.map (·.sentiment_score)).sum / (total : Rat))⟩

/-! ## Keyword bucketing (`advanced_insights.keyword_extraction`) -/

/-- `" ".join(texts)` on strings. -/
def joinStr (ts : List String) : String := String.intercalate " " ts

/-- The canonical sentiment labels, in the fixed iteration order of the
code. -/
def canonicalLabels : List String := ["positive", "negative", "neutral"]

/-- `advanced_insights.keyword_extraction`, with the external keyword
extractor as the capability-boundary parameter `kw` (it receives the joined
text blob; `top_n`, the n-gram range and the stopword filter are fixed
arguments of the capability call).  An empty review list for a label skips
the capability call and yields an empty bucket. -/
def keyword_extraction (kw : String → List (String × Rat)) (df : List LabeledRow) :
    List (String × List (String × Rat)) :=
  canonicalLabels.map (fun s =>
    let texts := (df.filter (fun r => r.sentiment == s)).map (·.cleaned_content)
    (s, if texts = [] then [] else kw (joinStr texts)))

/-! ## Sunburst hierarchy (`advanced_insights.build_sunburst`) -/

/-- One node of the sunburst hierarchy: parallel entries of the `labels`,
`parents`, `values` lists. -/
structure HNode where
  label : String
  parent : String
  weight : Rat
deriving DecidableEq

/-- Python `str.capitalize()`: first character uppercased, the rest
lowercased. -/
def pyCapitalize (s : String) : String :=
  match s.toList with
  | [] => ""
  | c :: rest => ⟨c.toUpper :: rest.map Char.toLower⟩

/-- The nodes contributed by one sentiment bucket: nothing when its count
is zero, otherwise the bucket node (parent `"Reviews"`) followed by up to 50
keyword nodes weighted by `round(score * 100, 2)`. -/
def bucketNodes (counts : String → Nat) (kw : String → List (String × Rat))
    (s : String) : List HNode :=
  if counts s = 0 then []
  else
    ⟨pyCapitalize s, "Reviews", (counts s : Rat)⟩ ::
      ((kw s).take 50).map (fun p => ⟨p.1, pyCapitalize s, round2 (p.2 * 100)⟩)

/-- `advanced_insights.build_sunburst` (the node-list construction feeding
the chart): root first, then the buckets in the fixed label order.
`counts` is `metrics["counts"].get(·, 0)` and `kw` is `keywords.get(·, [])`. -/
def build_sunburst (total : Nat) (counts : String → Nat)
    (kw : String → List (String × Rat)) : List HNode :=
  ⟨"Reviews", "", (total : Rat)⟩ ::
    (bucketNodes counts kw "positive" ++ bucketNodes counts kw "negative" ++
     bucketNodes counts kw "neutral")

/-- Checks that every node's parent is either empty (root) or the label of
an earlier node; `seen` carries the labels already emitted. -/
def parentsOkB (seen : List String) : List HNode → Bool
  | [] => true
  | n :: rest =>
    (n.parent == "" || decide (n.parent ∈ seen)) && parentsOkB (n.label :: seen) rest

/-! ## Insight rules (`advanced_insights.generate_insights`) -/

def MSG_PRICING : String :=
  "Pricing concerns detected. Consider revisiting subscription plans or offering trials."

def MSG_STABILITY : String :=
  "Users report stability issues. Prioritize bug fixes and QA."

def MSG_AUTH : String :=
  "Login or account issues prevalent. Simplify authentication flow."

def MSG_ADS : String :=
  "Negative sentiment around ads. Evaluate frequency and placement of advertisements."

def MSG_PERF : String :=
  "Performance issues noted. Optimize app speed and responsiveness."

def MSG_STREAM : String :=
  "Users compare the app with YouTube/other streaming platforms and question the subscription\x27s value. Clearly communicate unique offerings, consider content diversification, and evaluate pricing tiers."

def MSG_FALLBACK : String :=
  "Sentiment analysis did not highlight specific dominant issues. Continue monitoring."

/-- `any(k in neg_keywords for k in trigs)`: exact string membership of any
trigger keyword. -/
def anyHit (trigs neg : List String) : Bool := trigs.any (fun k => neg.contains k)

/-- The top-50 negative keyword strings examined by the rule engine. -/
def negOf (kw : String → List (String × Rat)) : List String :=
  ((kw "negative").take 50).map Prod.fst

/-- The `insights` list accumulated by the six ordered rules of
`generate_insights` before the fallback check: each firing rule appends its
message, in rule-definition order. -/
def ruleMsgs (kw : String → List (String × Rat)) : List String :=
  (if anyHit ["price", "subscription", "pay"] (negOf kw) then [MSG_PRICING] else []) ++
  (if anyHit ["bug", "crash", "error", "issue"] (negOf kw) then [MSG_STABILITY] else []) ++
  (if anyHit ["login", "account", "sign"] (negOf kw) then [MSG_AUTH] else []) ++
  (if anyHit ["ads", "advert"] (negOf kw) then [MSG_ADS] else []) ++
  (if anyHit ["slow", "lag", "performance"] (negOf kw) then [MSG_PERF] else []) ++
  (if anyHit ["youtube", "streaming", "video", "channel"] (negOf kw) then [MSG_STREAM] else [])

/-- `advanced_insights.generate_insights`: the fixed ordered rule table over
the negative keywords, with a single fallback message when no rule fires. -/
def generate_insights (kw : String → List (String × Rat)) : List String :=
  if ruleMsgs kw = [] then [MSG_FALLBACK] else ruleMsgs kw

/-!
# Theorems

Supporting lemmas first, then one theorem (plus witness or counterexample)
per claim.
-/

theorem toLowerN_idem (n : Nat) : toLowerN (toLowerN n) = toLowerN n := by
  unfold toLowerN
  split <;> (try split) <;> omega

theorem isWordN_ne_colon_dot {n : Nat} (h : isWordN n = true) : n ≠ 58 ∧ n ≠ 46 := by
  constructor <;> rintro rfl <;> simp [isWordN] at h

theorem wordOrSpace_fix {n : Nat} (h : (isWordN n || isPySpaceN n) = true) :
    wordOrSpace n = n := by
  simp [wordOrSpace, h]

theorem wordOrSpace_classify (n : Nat) :
    (isWordN (wordOrSpace n) || isPySpaceN (wordOrSpace n)) = true := by
  unfold wordOrSpace
  split
  · assumption
  · rfl

theorem mem_of_dropWhile {α} {p : α → Bool} {l : List α} {x : α}
    (h : x ∈ l.dropWhile p) : x ∈ l :=
  (List.dropWhile_sublist p).subset h

theorem mem_of_takeWhile {α} {p : α → Bool} {l : List α} {x : α}
    (h : x ∈ l.takeWhile p) : x ∈ l :=
  (List.takeWhile_sublist p).subset h

theorem matchCSS_mem {l r : List Nat} (h : matchCSS l = some r) : ∀ x ∈ r, x ∈ l := by
  unfold matchCSS at h
  split at h
  case h_1 a b c d rest =>
    split at h
    · simp only [Option.some.injEq] at h
      subst h
      intro x hx
      have : x ∈ rest := mem_of_dropWhile hx
      simp [this]
    · exact absurd h (by simp)
  case h_2 => exact absurd h (by simp)

theorem matchCSS_colon {l r : List Nat} (h : matchCSS l = some r) : 58 ∈ l := by
  unfold matchCSS at h
  split at h
  case h_1 a b c d rest =>
    split at h
    case isTrue hc => simp [hc.1]
    case isFalse => exact absurd h (by simp)
  case h_2 => exact absurd h (by simp)

theorem matchHttp_mem {l r : List Nat} (h : matchHttp l = some r) : ∀ x ∈ r, x ∈ l := by
  unfold matchHttp at h
  split at h
  case h_1 a b c d e rest2 =>
    split at h
    case isTrue hc =>
      split at h
      · split at h
        case h_1 r2 hcss =>
          simp only [Option.some.injEq] at h
          subst h
          intro x hx
          have : x ∈ rest2 := matchCSS_mem hcss x hx
          simp [this]
        case h_2 =>
          intro x hx
          have : x ∈ e :: rest2 := matchCSS_mem h x hx
          simp [List.mem_cons] at this ⊢
          tauto
      · intro x hx
        have : x ∈ e :: rest2 := matchCSS_mem h x hx
        simp [List.mem_cons] at this ⊢
        tauto
    case isFalse => exact absurd h (by simp)
  case h_2 => exact absurd h (by simp)

theorem matchHttp_colon {l r : List Nat} (h : matchHttp l = some r) : 58 ∈ l := by
  unfold matchHttp at h
  split at h
  case h_1 a b c d e rest2 =>
    split at h
    case isTrue hc =>
      split at h
      · split at h
        case h_1 r2 hcss =>
          have : (58 : Nat) ∈ rest2 := matchCSS_colon hcss
          simp [this]
        case h_2 =>
          have : (58 : Nat) ∈ e :: rest2 := matchCSS_colon h
          simp [List.mem_cons] at this ⊢
          tauto
      · have : (58 : Nat) ∈ e :: rest2 := matchCSS_colon h
        simp [List.mem_cons] at this ⊢
        tauto
    case isFalse => exact absurd h (by simp)
  case h_2 => exact absurd h (by simp)

theorem matchWWW_mem {l r : List Nat} (h : matchWWW l = some r) : ∀ x ∈ r, x ∈ l := by
  unfold matchWWW at h
  split at h
  case h_1 a b c d e rest =>
    split at h
    · simp only [Option.some.injEq] at h
      subst h
      intro x hx
      have : x ∈ rest := mem_of_dropWhile hx
      simp [this]
    · exact absurd h (by simp)
  case h_2 => exact absurd h (by simp)

theorem matchWWW_dot {l r : List Nat} (h : matchWWW l = some r) : 46 ∈ l := by
  unfold matchWWW at h
  split at h
  case h_1 a b c d e rest =>
    split at h
    case isTrue hc => simp [hc.2.2.2.1]
    case isFalse => exact absurd h (by simp)
  case h_2 => exact absurd h (by simp)

theorem matchURL_mem {l r : List Nat} (h : matchURL l = some r) : ∀ x ∈ r, x ∈ l := by
  unfold matchURL at h
  split at h
  case h_1 r2 hh =>
    simp only [Option.some.injEq] at h
    subst h
    exact matchHttp_mem hh
  case h_2 => exact matchWWW_mem h

theorem matchURL_none {l : List Nat} (h : ∀ x ∈ l, x ≠ 58 ∧ x ≠ 46) :
    matchURL l = none := by
  unfold matchURL
  have hh : matchHttp l = none := by
    match hm : matchHttp l with
    | none => rfl
    | some r => exact absurd (matchHttp_colon hm) (by intro hc; exact (h 58 hc).1 rfl)
  rw [hh]
  match hm : matchWWW l with
  | none => rfl
  | some r => exact absurd (matchWWW_dot hm) (by intro hc; exact (h 46 hc).2 rfl)

theorem stripURLsF_mem {fuel : Nat} {l : List Nat} {x : Nat}
    (h : x ∈ stripURLsF fuel l) : x ∈ l ∨ x = 32 := by
  induction fuel generalizing l with
  | zero => exact Or.inl h
  | succ fuel ih =>
    match l with
    | [] => exact Or.inl h
    | c :: rest =>
      unfold stripURLsF at h
      split at h
      case h_1 r2 hm =>
        rcases List.mem_cons.mp h with h32 | hrec
        · exact Or.inr h32
        · rcases ih hrec with hin | h32
          · exact Or.inl (matchURL_mem hm x hin)
          · exact Or.inr h32
      case h_2 =>
        rcases List.mem_cons.mp h with hc | hrec
        · exact Or.inl (by simp [hc])
        · rcases ih hrec with hin | h32
          · exact Or.inl (List.mem_cons_of_mem _ hin)
          · exact Or.inr h32

theorem stripURLsF_eq_self {fuel : Nat} {l : List Nat}
    (h : ∀ x ∈ l, x ≠ 58 ∧ x ≠ 46) : stripURLsF fuel l = l := by
  induction fuel generalizing l with
  | zero => rfl
  | succ fuel ih =>
    match l with
    | [] => rfl
    | c :: rest =>
      unfold stripURLsF
      rw [matchURL_none h]
      exact congrArg _ (ih (fun x hx => h x (List.mem_cons_of_mem _ hx)))

theorem collapseWsF_mem {fuel : Nat} {l : List Nat} {x : Nat}
    (h : x ∈ collapseWsF fuel l) : x ∈ l ∨ x = 32 := by
  induction fuel generalizing l with
  | zero => exact Or.inl h
  | succ fuel ih =>
    match l with
    | [] => exact Or.inl h
    | c :: rest =>
      unfold collapseWsF at h
      split at h
      · rcases List.mem_cons.mp h with h32 | hrec
        · exact Or.inr h32
        · rcases ih hrec with hin | h32
          · exact Or.inl (List.mem_cons_of_mem _ (mem_of_dropWhile hin))
          · exact Or.inr h32
      · rcases List.mem_cons.mp h with hc | hrec
        · exact Or.inl (by simp [hc])
        · rcases ih hrec with hin | h32
          · exact Or.inl (List.mem_cons_of_mem _ hin)
          · exact Or.inr h32


theorem wsOk_tail {c : Nat} {rest : List Nat} (h : wsOk (c :: rest) = true) :
    wsOk rest = true := by
  match rest with
  | [] => rfl
  | d :: rest2 =>
    unfold wsOk at h
    exact ((Bool.and_eq_true _ _).mp h).2

theorem collapseWsF_eq_self {fuel : Nat} {l : List Nat} (h : wsOk l = true) :
    collapseWsF fuel l = l := by
  induction fuel generalizing l with
  | zero => rfl
  | succ fuel ih =>
    match l with
    | [] => rfl
    | c :: rest =>
      unfold collapseWsF
      split
      case isTrue hsp =>
        match rest with
        | [] => unfold wsOk at h; simp [hsp] at h
        | d :: rest2 =>
          unfold wsOk at h
          rcases (Bool.and_eq_true _ _).mp h with ⟨h1, h2⟩
          rcases (Bool.or_eq_true _ _).mp h1 with h1 | h1
          · simp [hsp] at h1
          · rcases (Bool.and_eq_true _ _).mp h1 with ⟨hc32, hd⟩
            have hc32 : c = 32 := by simpa using hc32
            have hd : isPySpaceN d = false := by simpa using hd
            rw [List.dropWhile_cons_of_neg (by simp [hd])]
            rw [ih h2, hc32]
      case isFalse hsp =>
        exact congrArg _ (ih (wsOk_tail h))


theorem wsOk_of_all_nonspace {t : List Nat} (h : ∀ c ∈ t, isPySpaceN c = false) :
    wsOk t = true := by
  induction t with
  | nil => rfl
  | cons c rest ih =>
    have hc : isPySpaceN c = false := h c (by simp)
    match rest with
    | [] => simp [wsOk, hc]
    | d :: rest2 =>
      unfold wsOk
      refine (Bool.and_eq_true _ _).mpr ⟨?_, ih (fun x hx => h x (by simp [hx]))⟩
      simp [hc]

theorem wsOk_prepend {t l : List Nat} (ht : ∀ c ∈ t, isPySpaceN c = false)
    (hl : wsOk l = true) : wsOk (t ++ l) = true := by
  induction t with
  | nil => simpa using hl
  | cons c rest ih =>
    have hc : isPySpaceN c = false := ht c (by simp)
    have hrest : wsOk (rest ++ l) = true := ih (fun x hx => ht x (by simp [hx]))
    match hshape : rest ++ l with
    | [] =>
      show wsOk (c :: (rest ++ l)) = true
      rw [hshape]
      simp [wsOk, hc]
    | d :: m =>
      show wsOk (c :: (rest ++ l)) = true
      rw [hshape]
      unfold wsOk
      rw [hshape] at hrest
      refine (Bool.and_eq_true _ _).mpr ⟨?_, hrest⟩
      simp [hc]

theorem mem_joinSp {ts : List (List Nat)} {x : Nat} (h : x ∈ joinSp ts) :
    x = 32 ∨ ∃ t ∈ ts, x ∈ t := by
  induction ts with
  | nil => simp [joinSp] at h
  | cons t rest ih =>
    match rest with
    | [] =>
      right
      exact ⟨t, by simp, h⟩
    | t2 :: rest2 =>
      have : joinSp (t :: t2 :: rest2) = t ++ 32 :: joinSp (t2 :: rest2) := rfl
      rw [this] at h
      rcases List.mem_append.mp h with hin | hin
      · exact Or.inr ⟨t, by simp, hin⟩
      · rcases List.mem_cons.mp hin with h32 | hrec
        · exact Or.inl h32
        · rcases ih hrec with h32 | ⟨u, hu, hx⟩
          · exact Or.inl h32
          · exact Or.inr ⟨u, by simp [hu], hx⟩

theorem joinSp_head_nonspace {ts : List (List Nat)} (hg : goodToksWs ts) :
    ∀ c m, joinSp ts = c :: m → isPySpaceN c = false := by
  intro c m h
  match ts with
  | [] => simp [joinSp] at h
  | t :: rest =>
    obtain ⟨hne, hns⟩ := hg t (by simp)
    match t with
    | [] => exact absurd rfl hne
    | a :: t2 =>
      have ha : a = c := by
        match rest with
        | [] => simp [joinSp] at h; exact h.1
        | t3 :: rest2 =>
          have : joinSp ((a :: t2) :: t3 :: rest2) = a :: (t2 ++ 32 :: joinSp (t3 :: rest2)) := rfl
          rw [this] at h
          exact (List.cons.injEq _ _ _ _ ▸ h).1
      rw [← ha]
      exact hns a (by simp)

theorem wsOk_joinSp {ts : List (List Nat)} (hg : goodToksWs ts) :
    wsOk (joinSp ts) = true := by
  induction ts with
  | nil => rfl
  | cons t rest ih =>
    obtain ⟨hne, hns⟩ := hg t (by simp)
    have hgrest : goodToksWs rest := fun u hu => hg u (by simp [hu])
    match rest with
    | [] => exact wsOk_of_all_nonspace hns
    | t2 :: rest2 =>
      have hj : joinSp (t :: t2 :: rest2) = t ++ 32 :: joinSp (t2 :: rest2) := rfl
      rw [hj]
      apply wsOk_prepend hns
      have hwrest : wsOk (joinSp (t2 :: rest2)) = true := ih hgrest
      obtain ⟨hne2, hns2⟩ := hgrest t2 (by simp)
      match hshape : joinSp (t2 :: rest2) with
      | [] =>
        match t2 with
        | [] => exact absurd rfl hne2
        | a :: t3 =>
          match rest2 with
          | [] => simp [joinSp] at hshape
          | t4 :: rest3 => simp [joinSp] at hshape
      | d :: m =>
        have hd : isPySpaceN d = false := joinSp_head_nonspace hgrest d m hshape
        unfold wsOk
        rw [hshape] at hwrest
        refine (Bool.and_eq_true _ _).mpr ⟨?_, hwrest⟩
        simp [hd]

theorem wsOk_getLast {m : List Nat} {c : Nat} (h : wsOk (m ++ [c]) = true) :
    isPySpaceN c = false := by
  induction m with
  | nil => simpa [wsOk] using h
  | cons a m2 ih =>
    apply ih
    exact wsOk_tail (by simpa using h)

theorem stripN_mem {l : List Nat} {x : Nat} (h : x ∈ stripN l) : x ∈ l := by
  unfold stripN at h
  rw [List.mem_reverse] at h
  have h2 := mem_of_dropWhile h
  rw [List.mem_reverse] at h2
  exact mem_of_dropWhile h2

theorem stripN_eq_self {l : List Nat} (hw : wsOk l = true)
    (hh : ∀ c m, l = c :: m → isPySpaceN c = false) : stripN l = l := by
  match l with
  | [] => rfl
  | c :: m =>
    unfold stripN
    rw [List.dropWhile_cons_of_neg (by simp [hh c m rfl])]
    have hlast : isPySpaceN ((c :: m).getLast (by simp)) = false := by
      have hsplit : (c :: m).dropLast ++ [(c :: m).getLast (by simp)] = c :: m :=
        List.dropLast_append_getLast (by simp)
      exact wsOk_getLast (by rw [hsplit]; exact hw)
    have hrev : (c :: m).reverse = (c :: m).getLast (by simp) :: (c :: m).dropLast.reverse := by
      conv_lhs => rw [← List.dropLast_append_getLast (l := c :: m) (by simp)]
      simp
    rw [hrev, List.dropWhile_cons_of_neg (by simp [hlast]), ← hrev, List.reverse_reverse]

theorem takeWhile_all {p : Nat → Bool} {l : List Nat} (h : ∀ x ∈ l, p x = true) :
    l.takeWhile p = l := by
  induction l with
  | nil => rfl
  | cons a m ih =>
    rw [List.takeWhile_cons_of_pos (h a (by simp))]
    exact congrArg _ (ih (fun x hx => h x (by simp [hx])))

theorem dropWhile_all {p : Nat → Bool} {l : List Nat} (h : ∀ x ∈ l, p x = true) :
    l.dropWhile p = [] := by
  induction l with
  | nil => rfl
  | cons a m ih =>
    rw [List.dropWhile_cons_of_pos (h a (by simp))]
    exact ih (fun x hx => h x (by simp [hx]))

theorem takeWhile_append_stop {p : Nat → Bool} {t m : List Nat} {a : Nat}
    (ht : ∀ x ∈ t, p x = true) (ha : p a = false) :
    (t ++ a :: m).takeWhile p = t := by
  induction t with
  | nil => simpa using List.takeWhile_cons_of_neg (p := p) (l := m) (by simp [ha])
  | cons b t2 ih =>
    rw [List.cons_append, List.takeWhile_cons_of_pos (ht b (by simp))]
    exact congrArg _ (ih (fun x hx => ht x (by simp [hx])))

theorem dropWhile_append_stop {p : Nat → Bool} {t m : List Nat} {a : Nat}
    (ht : ∀ x ∈ t, p x = true) (ha : p a = false) :
    (t ++ a :: m).dropWhile p = a :: m := by
  induction t with
  | nil => simpa using List.dropWhile_cons_of_neg (p := p) (l := m) (by simp [ha])
  | cons b t2 ih =>
    rw [List.cons_append, List.dropWhile_cons_of_pos (ht b (by simp))]
    exact ih (fun x hx => ht x (by simp [hx]))

theorem splitWsF_facts {fuel : Nat} {l : List Nat} :
    ∀ t ∈ splitWsF fuel l, t ≠ [] ∧ ∀ c ∈ t, isPySpaceN c = false ∧ c ∈ l := by
  induction fuel generalizing l with
  | zero => intro t ht; simp [splitWsF] at ht
  | succ fuel ih =>
    intro t ht
    unfold splitWsF at ht
    split at ht
    case h_1 => simp at ht
    case h_2 c rest hdrop =>
      have hcl : c ∈ l := by
        have : c ∈ l.dropWhile isPySpaceN := by rw [hdrop]; simp
        exact mem_of_dropWhile this
      have hcn : isPySpaceN c = false := by
        have := List.head?_dropWhile_not isPySpaceN l
        rw [hdrop] at this
        simpa using this
      rcases List.mem_cons.mp ht with rfl | hrec
      · refine ⟨by simp, ?_⟩
        intro x hx
        rcases List.mem_cons.mp hx with rfl | hx2
        · exact ⟨hcn, hcl⟩
        · have hxr : x ∈ rest := mem_of_takeWhile hx2
          have hxl : x ∈ l := by
            have : x ∈ l.dropWhile isPySpaceN := by rw [hdrop]; simp [hxr]
            exact mem_of_dropWhile this
          have hns := List.mem_takeWhile_imp (p := fun x => !(isPySpaceN x)) hx2
          exact ⟨by simpa using hns, hxl⟩
      · obtain ⟨hne, hsub⟩ := ih t hrec
        refine ⟨hne, ?_⟩
        intro x hx
        obtain ⟨hns, hxin⟩ := hsub x hx
        have hxr : x ∈ rest := mem_of_dropWhile hxin
        have hxl : x ∈ l := by
          have : x ∈ l.dropWhile isPySpaceN := by rw [hdrop]; simp [hxr]
          exact mem_of_dropWhile this
        exact ⟨hns, hxl⟩

theorem splitWsF_cons_space {fuel c : Nat} {l : List Nat} (hc : isPySpaceN c = true) :
    splitWsF (fuel + 1) (c :: l) = splitWsF (fuel + 1) l := by
  unfold splitWsF
  rw [List.dropWhile_cons_of_pos hc]

theorem splitWsF_joinSp {ts : List (List Nat)} (hg : goodToksWs ts) :
    ∀ {fuel : Nat}, (joinSp ts).length ≤ fuel → splitWsF fuel (joinSp ts) = ts := by
  induction ts with
  | nil =>
    intro fuel hf
    match fuel with
    | 0 => rfl
    | _ + 1 => rfl
  | cons t rest ih =>
    intro fuel hf
    obtain ⟨hne, hns⟩ := hg t (by simp)
    have hgrest : goodToksWs rest := fun u hu => hg u (by simp [hu])
    match t with
    | [] => exact absurd rfl hne
    | a :: t2 =>
      have ha : isPySpaceN a = false := hns a (by simp)
      have ht2 : ∀ x ∈ t2, (!(isPySpaceN x)) = true := by
        intro x hx
        simp [hns x (by simp [hx])]
      match rest with
      | [] =>
        match fuel with
        | 0 => simp [joinSp] at hf
        | f + 1 =>
          show splitWsF (f + 1) (a :: t2) = [a :: t2]
          unfold splitWsF
          split
          case h_1 hdrop =>
            rw [List.dropWhile_cons_of_neg (by simp [ha])] at hdrop
            exact absurd hdrop (by simp)
          case h_2 c rest3 hdrop =>
            rw [List.dropWhile_cons_of_neg (by simp [ha])] at hdrop
            injection hdrop with h1 h2
            subst h1
            subst h2
            rw [takeWhile_all ht2, dropWhile_all ht2]
            match f with
            | 0 => rfl
            | _ + 1 => rfl
      | t3 :: rest2 =>
        have hj : joinSp ((a :: t2) :: t3 :: rest2)
            = a :: (t2 ++ 32 :: joinSp (t3 :: rest2)) := rfl
        rw [hj] at hf ⊢
        match fuel with
        | 0 => simp at hf
        | f + 1 =>
          unfold splitWsF
          split
          case h_1 hdrop =>
            rw [List.dropWhile_cons_of_neg (by simp [ha])] at hdrop
            exact absurd hdrop (by simp)
          case h_2 c rest3 hdrop =>
            rw [List.dropWhile_cons_of_neg (by simp [ha])] at hdrop
            injection hdrop with h1 h2
            subst h1
            subst h2
            rw [takeWhile_append_stop ht2 (by decide), dropWhile_append_stop ht2 (by decide)]
            have hflarge : (joinSp (t3 :: rest2)).length + 1 ≤ f := by
              simp only [List.length_cons, List.length_append] at hf
              omega
            match f with
            | 0 => omega
            | f2 + 1 =>
              rw [splitWsF_cons_space (by decide)]
              rw [ih hgrest (by omega)]

theorem map_fix {f : Nat → Nat} {l : List Nat} (h : ∀ a ∈ l, f a = a) :
    l.map f = l := by
  induction l with
  | nil => rfl
  | cons a m ih =>
    rw [List.map_cons, h a (by simp), ih (fun x hx => h x (by simp [hx]))]

theorem normStage_chars {s : List Nat} :
    ∀ x ∈ normStage s, (isWordN x || isPySpaceN x) = true ∧ toLowerN x = x := by
  intro x hx
  unfold normStage at hx
  have hx1 := collapseWsF_mem (stripN_mem hx)
  have h32 : (isWordN 32 || isPySpaceN 32) = true ∧ toLowerN 32 = 32 := by constructor <;> rfl
  rcases hx1 with hx1 | rfl
  · rcases List.mem_map.mp hx1 with ⟨c, hc, rfl⟩
    refine ⟨wordOrSpace_classify c, ?_⟩
    have hc2 := stripURLsF_mem hc
    rcases hc2 with hc2 | rfl
    · rcases List.mem_map.mp hc2 with ⟨b, hb, rfl⟩
      unfold wordOrSpace
      split
      · exact toLowerN_idem b
      · rfl
    · unfold wordOrSpace
      split
      · rfl
      · rfl
  · exact h32

theorem tokensOf_good {s : List Nat} :
    goodToksWs (tokensOf s)
      ∧ ∀ t ∈ tokensOf s, ∀ c ∈ t, isWordN c = true ∧ toLowerN c = c := by
  have hfacts : ∀ t ∈ tokensOf s, t ≠ [] ∧ ∀ c ∈ t, isPySpaceN c = false ∧ c ∈ normStage s := by
    intro t ht
    exact splitWsF_facts t (List.mem_of_mem_filter ht)
  constructor
  · intro t ht
    obtain ⟨hne, hc⟩ := hfacts t ht
    exact ⟨hne, fun c hcm => (hc c hcm).1⟩
  · intro t ht c hcm
    obtain ⟨hne, hc⟩ := hfacts t ht
    obtain ⟨hns, hin⟩ := hc c hcm
    obtain ⟨hcls, hfix⟩ := normStage_chars c hin
    refine ⟨?_, hfix⟩
    rcases Bool.or_eq_true _ _ |>.mp hcls with hw | hsp
    · exact hw
    · rw [hns] at hsp; exact absurd hsp (by simp)

theorem joinSp_chars {s : List Nat} :
    ∀ x ∈ joinSp (tokensOf s),
      (isWordN x || isPySpaceN x) = true ∧ toLowerN x = x ∧ x ≠ 58 ∧ x ≠ 46 := by
  intro x hx
  rcases mem_joinSp hx with rfl | ⟨t, ht, hxt⟩
  · exact ⟨by decide, by decide, by decide, by decide⟩
  · obtain ⟨hw, hfix⟩ := (tokensOf_good).2 t ht x hxt
    exact ⟨by simp [hw], hfix, isWordN_ne_colon_dot hw⟩

theorem normStage_joinSp {s : List Nat} : normStage (joinSp (tokensOf s)) = joinSp (tokensOf s) := by
  have hchars := joinSp_chars (s := s)
  have hgood := (tokensOf_good (s := s)).1
  unfold normStage
  rw [map_fix (fun a ha => (hchars a ha).2.1)]
  rw [show stripURLs (joinSp (tokensOf s)) = joinSp (tokensOf s) from
    stripURLsF_eq_self (fun x hx => (hchars x hx).2.2)]
  rw [map_fix (fun a ha => wordOrSpace_fix (hchars a ha).1)]
  rw [show collapseWs (joinSp (tokensOf s)) = joinSp (tokensOf s) from
    collapseWsF_eq_self (wsOk_joinSp hgood)]
  exact stripN_eq_self (wsOk_joinSp hgood)
    (fun c m hcm => joinSp_head_nonspace hgood c m hcm)

theorem tokensOf_joinSp {s : List Nat} : tokensOf (joinSp (tokensOf s)) = tokensOf s := by
  rw [tokensOf]
  rw [normStage_joinSp]
  rw [show splitWs (joinSp (tokensOf s)) = tokensOf s from
    splitWsF_joinSp (tokensOf_good).1 (le_refl _)]
  apply List.filter_eq_self.mpr
  intro t ht
  unfold tokensOf at ht
  exact (List.mem_filter.mp ht).2

/-- C2: text normalization is idempotent. -/
theorem cleanText_idempotent (s : List Nat) :
    cleanTextN (cleanTextN s) = cleanTextN s := by
  by_cases hs : s = []
  · rw [hs]; rfl
  · have hy : cleanTextN s = joinSp (tokensOf s) := by unfold cleanTextN; rw [if_neg hs]
    rw [hy]
    by_cases hny : joinSp (tokensOf s) = []
    · rw [hny]; rfl
    · unfold cleanTextN
      rw [if_neg hny, tokensOf_joinSp]

/-- C9: normalizing the raw text `"Great app!! Visit https://x.com now"`
yields exactly `"great app visit now"`; the URL and punctuation are removed,
whitespace is collapsed, and `"now"` survives because it is not in the fixed
stopword set. -/
theorem c9_scenario_normalize :
    cleanTextN (codes "Great app!! Visit https://x.com now") = codes "great app visit now"
    ∧ codes "now" ∉ STOPWORDS := by
  constructor
  · decide
  · decide

theorem foldl_bump (l : List Entry) (init : List (Int × Nat)) :
    l.foldl (fun cs rev => bumpCount cs (pyIntV rev.rating)) init
      = init.map (fun p => (p.1, p.2 + l.countP (fun rev => decide (pyIntV rev.rating = p.1)))) := by
  induction l generalizing init with
  | nil => simp
  | cons r l ih =>
    rw [List.foldl_cons, ih]
    unfold bumpCount
    rw [List.map_map]
    apply List.map_congr_left
    intro p hp
    by_cases hk : p.1 = pyIntV r.rating
    · simp only [Function.comp, if_pos hk, List.countP_cons]
      have : decide (pyIntV r.rating = p.1) = true := by simp [hk]
      simp [this]
      omega
    · simp only [Function.comp, if_neg hk, List.countP_cons]
      have : decide (pyIntV r.rating = p.1) = false := by
        simp
        exact fun h => hk h.symm
      simp [this]

theorem foldl_addRating (l : List Entry) (init : Int) :
    l.foldl (fun s rev => s + pyIntV rev.rating) init
      = init + (l.map (fun rev => pyIntV rev.rating)).sum := by
  induction l generalizing init with
  | nil => simp
  | cons r l ih =>
    rw [List.foldl_cons, ih]
    simp
    omega

/-- C1 is refuted on the code: a review whose rating is the numeric value 7
(outside [1,5]) is counted in `total_reviews` and dominates
`average_rating`, although it lands in no `rating_counts` bucket. -/
theorem c1_counterexample :
    (calculate_metrics [⟨.vnone, "us", .vint 7, .vstr "", .vstr "", [], []⟩]).total_reviews = 1
    ∧ (calculate_metrics [⟨.vnone, "us", .vint 7, .vstr "", .vstr "", [], []⟩]).average_rating = 7
    ∧ (calculate_metrics [⟨.vnone, "us", .vint 7, .vstr "", .vstr "", [], []⟩]).rating_counts
        = zeroCounts := by
  refine ⟨by decide, ?_, by decide⟩
  simp [calculate_metrics, isNumericV, pyIntV]

/-- C1 (amended): `calculate_metrics` silently ignores reviews whose rating
is absent or non-numeric, but every numeric rating — in range or not —
counts toward `total_reviews` and `average_rating` (after truncation toward
zero); only the `rating_counts` buckets are restricted to [1,5]. -/
theorem c1_amended (reviews : List Entry) :
    calculate_metrics reviews = calculate_metrics (reviews.filter (fun r => isNumericV r.rating))
    ∧ (calculate_metrics reviews).total_reviews
        = (reviews.filter (fun r => isNumericV r.rating)).length
    ∧ (calculate_metrics reviews).rating_counts
        = RATING_RANGE.map (fun r =>
            (r, (reviews.filter (fun rv => isNumericV rv.rating)).countP
                  (fun rv => decide (pyIntV rv.rating = r))))
    ∧ (reviews.filter (fun r => isNumericV r.rating) ≠ [] →
        (calculate_metrics reviews).average_rating
          = ((((reviews.filter (fun r => isNumericV r.rating)).map
                (fun rv => pyIntV rv.rating)).sum : Int) : Rat)
            / ((reviews.filter (fun r => isNumericV r.rating)).length : Rat)) := by
  have hff : (reviews.filter (fun r => isNumericV r.rating)).filter (fun r => isNumericV r.rating)
      = reviews.filter (fun r => isNumericV r.rating) :=
    List.filter_eq_self.mpr (fun a ha => (List.mem_filter.mp ha).2)
  by_cases h1 : reviews = []
  · subst h1
    refine ⟨rfl, rfl, by decide, ?_⟩
    intro h
    simp at h
  · by_cases h2 : reviews.filter (fun r => isNumericV r.rating) = []
    · have lhs : calculate_metrics reviews = ⟨0, zeroCounts, 0⟩ := by
        unfold calculate_metrics
        rw [if_neg h1]
        simp [h2, foldl_bump, foldl_addRating, zeroCounts]
      refine ⟨?_, ?_, ?_, ?_⟩
      · rw [lhs, h2]; rfl
      · rw [lhs, h2]; rfl
      · rw [lhs, h2]
        show zeroCounts = _
        simp [zeroCounts]
      · intro h; exact absurd h2 h
    · have lhs : calculate_metrics reviews
          = calculate_metrics (reviews.filter (fun r => isNumericV r.rating)) := by
        unfold calculate_metrics
        rw [if_neg h1, if_neg h2, hff]
      have htot : (calculate_metrics reviews).total_reviews
          = (reviews.filter (fun r => isNumericV r.rating)).length := by
        rw [lhs]
        unfold calculate_metrics
        rw [if_neg h2, hff]
      have hcnt : (calculate_metrics reviews).rating_counts
          = RATING_RANGE.map (fun r =>
              (r, (reviews.filter (fun rv => isNumericV rv.rating)).countP
                    (fun rv => decide (pyIntV rv.rating = r)))) := by
        rw [lhs]
        unfold calculate_metrics
        rw [if_neg h2, hff]
        show (reviews.filter (fun r => isNumericV r.rating)).foldl
            (fun cs rev => bumpCount cs (pyIntV rev.rating)) zeroCounts = _
        rw [foldl_bump]
        unfold zeroCounts
        rw [List.map_map]
        apply List.map_congr_left
        intro r hr
        simp [Function.comp]
      have havg : (reviews.filter (fun r => isNumericV r.rating) ≠ [] →
          (calculate_metrics reviews).average_rating
            = ((((reviews.filter (fun r => isNumericV r.rating)).map
                  (fun rv => pyIntV rv.rating)).sum : Int) : Rat)
              / ((reviews.filter (fun r => isNumericV r.rating)).length : Rat)) := by
        intro hne
        rw [lhs]
        unfold calculate_metrics
        rw [if_neg h2, hff]
        have hpos : 0 < (reviews.filter (fun r => isNumericV r.rating)).length :=
          List.length_pos.mpr hne
        show (if _ > 0 then _ else _) = _
        rw [if_pos hpos]
        rw [show ((reviews.filter (fun r => isNumericV r.rating)).foldl
            (fun s rev => s + pyIntV rev.rating) (0 : Int))
          = ((reviews.filter (fun r => isNumericV r.rating)).map
              (fun rv => pyIntV rv.rating)).sum from by rw [foldl_addRating]; omega]
      exact ⟨lhs, htot, hcnt, havg⟩

/-- Closed instance of the amended C1 on a corpus holding an in-range, an
out-of-range and a non-numeric rating: only the two numeric ones count, and
the average is (5 + 9) / 2 = 7. -/
theorem c1_amended_witness :
    (calculate_metrics
        [⟨.vnone, "us", .vint 5, .vstr "", .vstr "", [], []⟩,
         ⟨.vnone, "us", .vstr "bad", .vstr "", .vstr "", [], []⟩,
         ⟨.vnone, "us", .vint 9, .vstr "", .vstr "", [], []⟩]).total_reviews = 2
    ∧ (calculate_metrics
        [⟨.vnone, "us", .vint 5, .vstr "", .vstr "", [], []⟩,
         ⟨.vnone, "us", .vstr "bad", .vstr "", .vstr "", [], []⟩,
         ⟨.vnone, "us", .vint 9, .vstr "", .vstr "", [], []⟩]).average_rating = 7 := by
  have h := c1_amended
    [⟨.vnone, "us", .vint 5, .vstr "", .vstr "", [], []⟩,
     ⟨.vnone, "us", .vstr "bad", .vstr "", .vstr "", [], []⟩,
     ⟨.vnone, "us", .vint 9, .vstr "", .vstr "", [], []⟩]
  refine ⟨?_, ?_⟩
  · rw [h.2.1]
    decide
  · rw [h.2.2.2 (by decide)]
    norm_num [List.filter, isNumericV, pyIntV]

theorem mapM_percent {counts : List (String × Nat)} {t : Rat} (ht : t ≠ 0) :
    counts.mapM (fun p => do
        let q ← pyDiv (100 * (p.2 : Rat)) t
        pure (p.1, round2 q))
      = Except.ok ((counts.map (fun p => (p.1, round2 (100 * (p.2 : Rat) / t)))) :
          List (String × Rat)) := by
  induction counts with
  | nil => rfl
  | cons p ps ih =>
    rw [List.mapM_cons, ih]
    simp [pyDiv, ht]
    rfl

/-- C3: on an empty labeled corpus `sentiment_metrics` returns the empty
metrics object (no `ZeroDivisionError` is reached, because the percentage
comprehension iterates over an empty counts dict); on a non-empty corpus it
returns per-label percentages `round(100 * count / total, 2)` together with
the counts and the mean confidence score. -/
theorem c3_theorem :
    sentiment_metrics [] = .ok ⟨0, [], [], none⟩
    ∧ ∀ df : List LabeledRow, df ≠ [] →
        sentiment_metrics df = .ok ⟨df.length, value_counts (df.map (·.sentiment)),
          (value_counts (df.map (·.sentiment))).map
            (fun p => (p.1, round2 (100 * (p.2 : Rat) / (df.length : Rat)))),
          some ((df.map (·.sentiment_score)).sum / (df.length : Rat))⟩ := by
  refine ⟨rfl, ?_⟩
  intro df hdf
  have hlen : df.length ≠ 0 := fun h => hdf (List.length_eq_zero.mp h)
  have hcast : (df.length : Rat) ≠ 0 := Nat.cast_ne_zero.mpr hlen
  unfold sentiment_metrics
  dsimp only
  rw [mapM_percent hcast]
  simp [hlen]

/-- Closed instance of C3 on a two-row corpus. -/
theorem c3_witness :
    sentiment_metrics [⟨"", "positive", 1/2⟩, ⟨"", "negative", 1/4⟩]
      = .ok ⟨2, value_counts (([⟨"", "positive", 1/2⟩, ⟨"", "negative", 1/4⟩] :
              List LabeledRow).map (·.sentiment)),
          (value_counts (([⟨"", "positive", 1/2⟩, ⟨"", "negative", 1/4⟩] :
              List LabeledRow).map (·.sentiment))).map
            (fun p => (p.1, round2 (100 * (p.2 : Rat) / ((2 : Nat) : Rat)))),
          some ((([⟨"", "positive", 1/2⟩, ⟨"", "negative", 1/4⟩] :
              List LabeledRow).map (·.sentiment_score)).sum / ((2 : Nat) : Rat))⟩ :=
  c3_theorem.2 [⟨"", "positive", 1/2⟩, ⟨"", "negative", 1/4⟩] (by decide)

/-- C4 is refuted on the code: the classifier score `1` is numeric (an
`int`), but `isinstance(r["score"], float)` is false for it, so the stored
`sentiment_score` is 0.0, not 1. -/
theorem c4_counterexample :
    isNumericV (.vint 1) = true
    ∧ (apply_sentiment [⟨""⟩] [⟨"positive", .vint 1⟩]).map (·.sentiment_score) = [0]
    ∧ (0 : Rat) ≠ 1 := by
  refine ⟨rfl, rfl, by norm_num⟩

/-- C4 (amended): the stored `sentiment_score` equals the capability's
returned score exactly when that score is a `float`; any other value —
integers included — is replaced by 0.0, and the substitution itself never
raises (it is total on the result rows). -/
theorem c4_amended (df : List CleanRow) (results : List ClsResult) :
    (apply_sentiment df results).length = min df.length results.length
    ∧ ∀ i (h1 : i < (apply_sentiment df results).length) (h2 : i < results.length),
        ((apply_sentiment df results).get ⟨i, h1⟩).sentiment_score
          = match (results.get ⟨i, h2⟩).score with
            | .vfloat q => q
            | _ => 0 := by
  constructor
  · exact List.length_zipWith _ _ _
  · intro i h1 h2
    have hz : ((apply_sentiment df results).get ⟨i, h1⟩)
        = ⟨(df.get ⟨i, by
              have h3 := h1
              unfold apply_sentiment at h3
              rw [List.length_zipWith] at h3
              omega⟩).cleaned_content,
            mapLabel ((results.get ⟨i, h2⟩).label),
            attachScore ((results.get ⟨i, h2⟩).score)⟩ := by
      unfold apply_sentiment
      apply List.get_zipWith
    rw [hz]
    show attachScore ((results.get ⟨i, h2⟩).score) = _
    cases hsc : (results.get ⟨i, h2⟩).score <;> simp [attachScore]

/-- Closed instance of the amended C4: a float score is stored unchanged. -/
theorem c4_amended_witness :
    ((apply_sentiment [⟨""⟩] [⟨"neutral", .vfloat (3/4)⟩]).get ⟨0, by decide⟩).sentiment_score
      = match (([⟨"neutral", .vfloat (3/4)⟩] : List ClsResult).get ⟨0, by decide⟩).score with
        | .vfloat q => q
        | _ => 0 :=
  (c4_amended [⟨""⟩] [⟨"neutral", .vfloat (3/4)⟩]).2 0 (by decide) (by decide)

/-- C5 is refuted on the code: one positive review with empty
`cleaned_content` makes the joined blob empty, yet the review list for the
label is non-empty, so the extraction capability is invoked on the empty
blob and the bucket depends on it. -/
theorem c5_counterexample :
    joinStr ((([⟨"", "positive", 0⟩] : List LabeledRow).filter
        (fun r => r.sentiment == "positive")).map (·.cleaned_content)) = ""
    ∧ keyword_extraction (fun _ => []) [⟨"", "positive", 0⟩]
        ≠ keyword_extraction (fun _ => [("x", 1)]) [⟨"", "positive", 0⟩] := by
  refine ⟨rfl, ?_⟩
  decide

/-- C5 (amended): for each canonical label the bucket is the capability's
output on the space-joined `cleaned_content` blob (per-review order
preserved), except that an *empty review list* for the label short-circuits
to an empty bucket without consulting the capability; in particular the
bucket is independent of the capability exactly in that case, not whenever
the joined blob is empty. -/
theorem c5_amended (kw kw2 : String → List (String × Rat)) (df : List LabeledRow)
    (s : String) (hs : s ∈ canonicalLabels) :
    ((keyword_extraction kw df).lookup s
        = some (if (df.filter (fun r => r.sentiment == s)).map (·.cleaned_content) = [] then []
                else kw (joinStr ((df.filter (fun r => r.sentiment == s)).map (·.cleaned_content)))))
    ∧ ((df.filter (fun r => r.sentiment == s)) = [] →
        (keyword_extraction kw df).lookup s = (keyword_extraction kw2 df).lookup s) := by
  fin_cases hs <;>
    refine ⟨by simp [keyword_extraction, canonicalLabels, List.lookup], ?_⟩ <;>
    intro h <;>
    simp [keyword_extraction, canonicalLabels, List.lookup, h]

/-- Closed instance of the amended C5 on a corpus with no negative review:
the negative bucket is empty and capability-independent. -/
theorem c5_amended_witness :
    ((keyword_extraction (fun _ => [("x", 1)]) [⟨"good stuff", "positive", 1⟩]).lookup "negative"
        = some (if (([⟨"good stuff", "positive", 1⟩] : List LabeledRow).filter
              (fun r => r.sentiment == "negative")).map (·.cleaned_content) = [] then []
            else (fun _ => [("x", 1)]) (joinStr ((([⟨"good stuff", "positive", 1⟩] :
              List LabeledRow).filter (fun r => r.sentiment == "negative")).map (·.cleaned_content)))))
    ∧ (keyword_extraction (fun _ => [("x", 1)]) [⟨"good stuff", "positive", 1⟩]).lookup "negative"
        = (keyword_extraction (fun _ => []) [⟨"good stuff", "positive", 1⟩]).lookup "negative" :=
  ⟨(c5_amended (fun _ => [("x", 1)]) (fun _ => []) [⟨"good stuff", "positive", 1⟩]
      "negative" (by decide)).1,
   (c5_amended (fun _ => [("x", 1)]) (fun _ => []) [⟨"good stuff", "positive", 1⟩]
      "negative" (by decide)).2 (by decide)⟩

/-- C6 is refuted on the code: a single discovered file that is malformed
yields zero cleaned entries, and the `/process` endpoint then signals the
not-found failure even though the number of discovered raw files is 1, not
0. -/
theorem c6_counterexample :
    process_reviews_endpoint [("us", .malformed)]
        = .error "404: No raw review files found to process."
    ∧ ([("us", RawFile.malformed)] : List (String × RawFile)).length = 1 := by
  exact ⟨rfl, rfl⟩

/-- C6 (amended): the loader never raises — a malformed file, or a record
whose construction fails, is skipped and the remaining reviews are still
returned — and the `/process` endpoint signals not-found exactly when the
cleaned result is empty: either zero raw files were found, or every found
file contributed zero entries. -/
theorem c6_amended :
    (∀ (fs1 fs2 : List (String × RawFile)) (c : String),
        process_reviews (fs1 ++ (c, .malformed) :: fs2) = process_reviews (fs1 ++ fs2))
    ∧ (∀ (c : String) (rs1 rs2 : List RawReview) (bad : RawReview),
        processReview c bad = none →
        process_reviews [(c, .parsed (rs1 ++ bad :: rs2))]
          = process_reviews [(c, .parsed (rs1 ++ rs2))])
    ∧ (∀ files : List (String × RawFile),
        (∃ e, process_reviews_endpoint files = .error e) ↔ process_reviews files = [])
    ∧ process_reviews [] = [] := by
  refine ⟨?_, ?_, ?_, rfl⟩
  · intro fs1 fs2 c
    unfold process_reviews
    by_cases h : fs1 ++ fs2 = []
    · rcases List.append_eq_nil.mp h with ⟨h1, h2⟩
      subst h1; subst h2
      simp [loadReviewsFile]
    · rw [if_neg h, if_neg (by simp)]
      simp [loadReviewsFile]
  · intro c rs1 rs2 bad hbad
    unfold process_reviews
    rw [if_neg (by simp), if_neg (by simp)]
    simp [loadReviewsFile, List.filterMap_append, hbad]
  · intro files
    unfold process_reviews_endpoint
    by_cases h : process_reviews files = []
    · simp [h]
    · simp [h]

/-- Closed instance of the amended C6: a parsed file whose single bad record
(a truthy non-string title) is skipped contributes the same entries as the
file without it. -/
theorem c6_amended_witness :
    process_reviews [("us", .parsed ([] ++ (⟨none, none, some (.vint 5), none⟩ : RawReview) :: []))]
      = process_reviews [("us", .parsed ([] ++ []))] :=
  c6_amended.2.1 "us" [] [] ⟨none, none, some (.vint 5), none⟩ rfl

theorem parentsOkB_append {l1 l2 : List HNode} {seen : List String} :
    parentsOkB seen (l1 ++ l2)
      = (parentsOkB seen l1 && parentsOkB (l1.reverse.map (·.label) ++ seen) l2) := by
  induction l1 generalizing seen with
  | nil => simp [parentsOkB]
  | cons n t ih =>
    rw [List.cons_append]
    show ((n.parent == "" || decide (n.parent ∈ seen))
        && parentsOkB (n.label :: seen) (t ++ l2)) = _
    rw [ih]
    show _ = (((n.parent == "" || decide (n.parent ∈ seen)) && parentsOkB (n.label :: seen) t)
        && parentsOkB ((n :: t).reverse.map (·.label) ++ seen) l2)
    rw [List.reverse_cons, List.map_append, List.append_assoc, Bool.and_assoc]
    rfl

theorem parentsOkB_mono {l : List HNode} {seen seen2 : List String}
    (hsub : ∀ x ∈ seen, x ∈ seen2) (h : parentsOkB seen l = true) :
    parentsOkB seen2 l = true := by
  induction l generalizing seen seen2 with
  | nil => rfl
  | cons n t ih =>
    unfold parentsOkB at h ⊢
    rcases (Bool.and_eq_true _ _).mp h with ⟨h1, h2⟩
    refine (Bool.and_eq_true _ _).mpr ⟨?_, ?_⟩
    · rcases (Bool.or_eq_true _ _).mp h1 with h1 | h1
      · simp [h1]
      · have : n.parent ∈ seen2 := hsub _ (by simpa using h1)
        simp [this]
    · exact ih (fun x hx => by
        rcases List.mem_cons.mp hx with rfl | hx
        · simp
        · simp [hsub x hx]) h2

theorem parentsOkB_kwNodes {ps : List (String × Rat)} {seen : List String}
    {par : String} {w : String × Rat → Rat} (hpar : par ∈ seen) :
    parentsOkB seen (ps.map (fun p => ⟨p.1, par, w p⟩)) = true := by
  induction ps generalizing seen with
  | nil => rfl
  | cons p t ih =>
    rw [List.map_cons]
    unfold parentsOkB
    refine (Bool.and_eq_true _ _).mpr ⟨by simp [hpar], ?_⟩
    exact ih (by simp [hpar])

theorem parentsOkB_bucket {counts : String → Nat} {kw : String → List (String × Rat)}
    {s : String} {seen : List String} (hseen : "Reviews" ∈ seen) :
    parentsOkB seen (bucketNodes counts kw s) = true := by
  unfold bucketNodes
  split
  · rfl
  · unfold parentsOkB
    refine (Bool.and_eq_true _ _).mpr ⟨by simp [hseen], ?_⟩
    exact parentsOkB_kwNodes (by simp)

theorem bucketNodes_weights {counts : String → Nat} {kw : String → List (String × Rat)}
    {s : String} {n : HNode} (hn : n ∈ bucketNodes counts kw s)
    (hcap : pyCapitalize s ≠ "Reviews") (hpar : n.parent = "Reviews") :
    n.weight ≠ 0 := by
  unfold bucketNodes at hn
  split at hn
  · simp at hn
  case isFalse hc =>
    rcases List.mem_cons.mp hn with rfl | hn
    · show ((counts s : Nat) : Rat) ≠ 0
      exact_mod_cast hc
    · rcases List.mem_map.mp hn with ⟨p, hp, rfl⟩
      exact absurd hpar hcap

/-- C7: the node list built by `build_sunburst` starts with the root, never
contains a sentiment-bucket node (a node attached to the root) of weight 0
— zero-count buckets and their keyword children are omitted entirely — and
every node's parent label occurs earlier in the sequence. -/
theorem c7_theorem (total : Nat) (counts : String → Nat)
    (kw : String → List (String × Rat)) :
    (build_sunburst total counts kw).head? = some ⟨"Reviews", "", (total : Rat)⟩
    ∧ (∀ n ∈ build_sunburst total counts kw, n.parent = "Reviews" → n.weight ≠ 0)
    ∧ parentsOkB [] (build_sunburst total counts kw) = true := by
  refine ⟨rfl, ?_, ?_⟩
  · intro n hn hpar
    unfold build_sunburst at hn
    rcases List.mem_cons.mp hn with rfl | hn
    · simp at hpar
    · rcases List.mem_append.mp hn with hn | hn
      · rcases List.mem_append.mp hn with hn | hn
        · exact bucketNodes_weights hn (by decide) hpar
        · exact bucketNodes_weights hn (by decide) hpar
      · exact bucketNodes_weights hn (by decide) hpar
  · unfold build_sunburst parentsOkB
    refine (Bool.and_eq_true _ _).mpr ⟨by simp, ?_⟩
    rw [parentsOkB_append, parentsOkB_append]
    refine (Bool.and_eq_true _ _).mpr
      ⟨(Bool.and_eq_true _ _).mpr ⟨?_, ?_⟩, ?_⟩
    · exact parentsOkB_bucket (by simp)
    · exact parentsOkB_bucket (by simp [List.mem_append])
    · apply parentsOkB_bucket
      simp [List.mem_append]

/-- Closed instance of C7 with a zero-count bucket (negative) and keyword
children under the positive bucket. -/
theorem c7_witness :
    parentsOkB []
        (build_sunburst 3
          (fun s => if s = "positive" then 2 else if s = "neutral" then 1 else 0)
          (fun s => if s = "positive" then [("good", 1/2)] else [])) = true
    ∧ ∀ n ∈ build_sunburst 3
          (fun s => if s = "positive" then 2 else if s = "neutral" then 1 else 0)
          (fun s => if s = "positive" then [("good", 1/2)] else []),
        n.parent = "Reviews" → n.weight ≠ 0 :=
  ⟨(c7_theorem 3 _ _).2.2, (c7_theorem 3 _ _).2.1⟩

theorem ins_subset {kw : String → List (String × Rat)} {x : String}
    (hx : x ∈ ruleMsgs kw) :
    x ∈ [MSG_PRICING, MSG_STABILITY, MSG_AUTH, MSG_ADS, MSG_PERF, MSG_STREAM] := by
  unfold ruleMsgs at hx
  simp only [List.mem_append] at hx
  rcases hx with ((((hx | hx) | hx) | hx) | hx) | hx <;>
    (split at hx <;> simp at hx <;> simp [hx])

theorem nil_of_ifList {c : Bool} {m : String}
    (h : (if c = true then [m] else []) = []) : c = false := by
  cases c
  · rfl
  · simp at h

/-- C8: with negative keywords containing both `"crash"` and `"login"`, the
rule engine emits the stability message then the authentication message, in
rule-definition order, without the fallback; in general the fallback message
is emitted exactly when none of the six rules fires. -/
theorem c8_theorem :
    (∀ q1 q2 : Rat,
      generate_insights (fun l => if l = "negative" then [("crash", q1), ("login", q2)] else [])
        = [MSG_STABILITY, MSG_AUTH])
    ∧ ∀ kw : String → List (String × Rat),
        (MSG_FALLBACK ∈ generate_insights kw
          ↔ (anyHit ["price", "subscription", "pay"] (negOf kw) = false
             ∧ anyHit ["bug", "crash", "error", "issue"] (negOf kw) = false
             ∧ anyHit ["login", "account", "sign"] (negOf kw) = false
             ∧ anyHit ["ads", "advert"] (negOf kw) = false
             ∧ anyHit ["slow", "lag", "performance"] (negOf kw) = false
             ∧ anyHit ["youtube", "streaming", "video", "channel"] (negOf kw) = false)) := by
  refine ⟨fun q1 q2 => rfl, ?_⟩
  intro kw
  unfold generate_insights
  constructor
  · intro hmem
    split at hmem
    case isTrue h =>
      unfold ruleMsgs at h
      simp only [List.append_eq_nil] at h
      obtain ⟨⟨⟨⟨⟨h1, h2⟩, h3⟩, h4⟩, h5⟩, h6⟩ := h
      exact ⟨nil_of_ifList h1, nil_of_ifList h2, nil_of_ifList h3,
             nil_of_ifList h4, nil_of_ifList h5, nil_of_ifList h6⟩
    case isFalse h =>
      exfalso
      have hsub := ins_subset hmem
      simp only [List.mem_cons, List.mem_singleton] at hsub
      rcases hsub with he | he | he | he | he | he <;> exact absurd he (by decide)
  · rintro ⟨h1, h2, h3, h4, h5, h6⟩
    have hr : ruleMsgs kw = [] := by
      unfold ruleMsgs
      simp [h1, h2, h3, h4, h5, h6]
    simp [hr]

/-- Closed instance of C8 at concrete scores. -/
theorem c8_witness :
    generate_insights
        (fun l => if l = "negative" then [("crash", (1 : Rat)), ("login", (2 : Rat))] else [])
      = [MSG_STABILITY, MSG_AUTH] :=
  c8_theorem.1 1 2

/-- C10: the rule engine always returns at least one insight (a rule message
or the fallback) and at most seven; the fallback never appears alongside a
rule message. -/
theorem c10_theorem (kw : String → List (String × Rat)) :
    generate_insights kw ≠ []
    ∧ (generate_insights kw).length ≤ 7
    ∧ (MSG_FALLBACK ∈ generate_insights kw → generate_insights kw = [MSG_FALLBACK]) := by
  have hb : ∀ (c : Bool) (m : String), (if c = true then [m] else []).length ≤ 1 := by
    intro c m
    cases c <;> simp
  have hlen : (ruleMsgs kw).length ≤ 6 := by
    unfold ruleMsgs
    simp only [List.length_append]
    have b1 := hb (anyHit ["price", "subscription", "pay"] (negOf kw)) MSG_PRICING
    have b2 := hb (anyHit ["bug", "crash", "error", "issue"] (negOf kw)) MSG_STABILITY
    have b3 := hb (anyHit ["login", "account", "sign"] (negOf kw)) MSG_AUTH
    have b4 := hb (anyHit ["ads", "advert"] (negOf kw)) MSG_ADS
    have b5 := hb (anyHit ["slow", "lag", "performance"] (negOf kw)) MSG_PERF
    have b6 := hb (anyHit ["youtube", "streaming", "video", "channel"] (negOf kw)) MSG_STREAM
    omega
  unfold generate_insights
  refine ⟨?_, ?_, ?_⟩
  · split
    · simp
    case isFalse h => exact h
  · split
    · simp
    · omega
  · split
    · intro _; rfl
    case isFalse h =>
      intro hmem
      exfalso
      have hsub := ins_subset hmem
      simp only [List.mem_cons, List.mem_singleton] at hsub
      rcases hsub with he | he | he | he | he | he <;> exact absurd he (by decide)

/-- Closed instance of C10 on an empty keyword mapping: only the fallback is
emitted. -/
theorem c10_witness :
    generate_insights (fun _ => []) = [MSG_FALLBACK]
    ∧ generate_insights (fun _ => []) ≠ [] :=
  ⟨(c10_theorem (fun _ => [])).2.2 (by decide), (c10_theorem (fun _ => [])).1⟩
